import Mathlib

/-!
Verification of the `bitset` crate (`src/bitset.rs`) against its
natural-language specification.

The Rust `BitSet` stores bits in a `Vec<usize>` of blocks; we model a
64-bit platform, so a block is 64 bits wide and `usize` values are
natural numbers below `2 ^ 64`.  Fallible operations (the source faults
via an unrecoverable runtime error, or returns `Result`) are modelled
with `Except String`, the error carrying the source's message string.
The supported unsigned source/target types u8, u16, u32, u64, u128 and
usize are modelled by their bit widths; on the modelled 64-bit platform
usize coincides with u64.
-/

namespace BitsetCrate

/-- Size of one block in bits: `size_of::<usize>() * 8` on the modelled
64-bit platform (`BitSet::block_size`). -/
def blockSize : Nat := 64

/-- The largest `usize` value, `usize::MAX`. -/
def usizeMax : Nat := 2 ^ blockSize - 1

/-- `struct BitPosition`: the block holding a bit and the bit's offset
inside that block. -/
structure BitPosition where
  block_number : Nat
  block_position : Nat
deriving DecidableEq

/-- `struct BitSet`: a list of blocks (index 0 = least significant) and
the logical number of usable bits. -/
structure BitSet where
  blocks : List Nat
  size : Nat
deriving DecidableEq

namespace BitSet

/-- `BitSet::blocks_number`: number of blocks needed for `size` bits. -/
def blocks_number (size : Nat) : Nat :=
  let div := size / blockSize
  let rem := size % blockSize
  if rem = 0 then div else div + 1

/-- The message formatted by `BitSet::assert_position` when `position`
is out of range (note the `size - 1` in the source, a `usize`
subtraction). -/
def positionMessage (position size : Nat) : String :=
  "Bit position [" ++ Nat.repr position ++ "] is outside available range: [0, "
    ++ Nat.repr (size - 1) ++ "]"

/-- `BitSet::get_bit_position`: block number and offset of a logical
position. -/
def get_bit_position (position : Nat) : BitPosition :=
  { block_number := position / blockSize, block_position := position % blockSize }

/-- `BitSet::make_bitmask`: a word with exactly the bit at `position`
set. -/
def make_bitmask (position : Nat) : Nat := 1 <<< position

/-- `BitSet::new`.  The source faults when `size == 0`; otherwise it
allocates `blocks_number size` zero blocks. -/
def new (size : Nat) : Except String BitSet :=
  if size = 0 then
    Except.error "Creating BitSet with zero bits is not allowed."
  else
    Except.ok { blocks := List.replicate (blocks_number size) 0, size := size }

/-- `BitSet::get`.  Faults (as an `Except.error`) when the position is
out of range; a second error case models the `Vec` indexing fault,
which is unreachable on well-formed sets. -/
def get (b : BitSet) (position : Nat) : Except String Bool :=
  if b.size ≤ position then
    Except.error (positionMessage position b.size)
  else
    let bp := get_bit_position position
    let bitmask := make_bitmask bp.block_position
    match b.blocks[bp.block_number]? with
    | none => Except.error "block index out of bounds"
    | some block => Except.ok (block &&& bitmask != 0)

/-- The `newBlock` computed inside `BitSet::set`: OR the bitmask in, or
AND with its complement.  The `!bitmask` of the source is complement
within the 64-bit word, i.e. `usizeMax ^^^ bitmask`. -/
def updatedBlock (block offset : Nat) (value : Bool) : Nat :=
  if value then block ||| make_bitmask offset
  else block &&& (usizeMax ^^^ make_bitmask offset)

/-- `BitSet::set`. -/
def set (b : BitSet) (position : Nat) (value : Bool) : Except String BitSet :=
  if b.size ≤ position then
    Except.error (positionMessage position b.size)
  else
    let bp := get_bit_position position
    match b.blocks[bp.block_number]? with
    | none => Except.error "block index out of bounds"
    | some block =>
      Except.ok
        { b with
          blocks :=
            b.blocks.set bp.block_number (updatedBlock block bp.block_position value) }

/-- `BitSet::all`: every block equals `usize::MAX` (the padding bits of
the final block are compared too). -/
def all (b : BitSet) : Bool :=
  b.blocks.all (fun block => block == usizeMax)

/-- `BitSet::any`: some block is nonzero. -/
def any (b : BitSet) : Bool :=
  b.blocks.any (fun block => block != 0)

end BitSet

/-- `value.to_be_bytes()` for a `numBytes`-byte unsigned integer: the
big-endian byte decomposition, most significant byte first. -/
def toBeBytes (numBytes : Nat) (value : Nat) : List Nat :=
  (List.range numBytes).map (fun i => value / 2 ^ (8 * (numBytes - 1 - i)) % 256)

/-- The inner loop of the `From` macro: fold one chunk of bytes into a
block, `block = (block << 8) | byte`. -/
def beFoldBlock (chunk : List Nat) : Nat :=
  chunk.foldl (fun block byte => (block <<< 8) ||| byte) 0

/-- `slice::chunks(k)` with explicit fuel (the list length suffices as
fuel whenever `1 ≤ k`). -/
def chunksOfAux (k : Nat) : Nat → List Nat → List (List Nat)
  | 0, _ => []
  | _, [] => []
  | fuel + 1, l => l.take k :: chunksOfAux k fuel (l.drop k)

/-- `value_bytes.chunks(bytes_per_block)`. -/
def chunksOf (k : Nat) (l : List Nat) : List (List Nat) :=
  chunksOfAux k l.length l

namespace BitSet

/-- The `add_from_uint_trait!` macro instantiated at a source type of
`widthBits` bits (u16, u32, u64, u128, usize): slice the big-endian
bytes into blocks of 8 bytes, fold each chunk, and reverse so block 0
is least significant.  (The macro's `blocks_number(required_size)` is
only a capacity hint for the vector and has no semantic effect.) -/
def fromUint (widthBits : Nat) (value : Nat) : BitSet :=
  let value_bytes := toBeBytes (widthBits / 8) value
  let blocks := ((chunksOf 8 value_bytes).map beFoldBlock).reverse
  { blocks := blocks, size := widthBits }

/-- The dedicated `impl From<u8> for BitSet`: a single block holding the
value directly. -/
def fromU8 (value : Nat) : BitSet :=
  { blocks := [value], size := 8 }

/-- Dispatch of `BitSet::from` over the supported source widths: u8 has
its own impl, the rest go through the macro. -/
def ofUint (widthBits : Nat) (value : Nat) : BitSet :=
  if widthBits = 8 then fromU8 value else fromUint widthBits value

end BitSet

/-- The error string returned by every `TryFrom<BitSet>` instance. -/
def conversionError : String := "Value stored in BitSet cannot be converted to u8."

/-- The `add_try_from_uint_trait!` macro instantiated at a target type
of `targetBits` bits.  `block_size` and `output_bytes` are byte counts,
as in the source.  The single-block branch is `try_from` on
`blocks[0]`, failing when the block exceeds the target's maximum.  The
multi-block branch checks `blocks[blocks_needed - 1..]` for nonzero
blocks and folds `blocks[0..blocks_needed - 1]` with shift-or; the
shift and the `as` cast wrap modulo `2 ^ targetBits` as the fixed-width
target arithmetic does. -/
def tryFromUint (targetBits : Nat) (value : BitSet) : Except String Nat :=
  let block_size := 8
  let output_bytes := targetBits / 8
  let blocks_needed : Nat := max (output_bytes / block_size) 1
  if blocks_needed = 1 then
    match value.blocks[0]? with
    | none => Except.error "block index out of bounds"
    | some block =>
      if block < 2 ^ targetBits then Except.ok block
      else Except.error conversionError
  else
    if (value.blocks.drop (blocks_needed - 1)).any (fun block => block != 0) then
      Except.error conversionError
    else
      Except.ok ((value.blocks.take (blocks_needed - 1)).foldl
        (fun output block =>
          ((output <<< blockSize) % 2 ^ targetBits) ||| (block % 2 ^ targetBits)) 0)

/-- The binary rendering of one block, `format "{:0width$b}"` on a
`usize`: exactly `width` characters, most significant bit first (exact
for block values below `2 ^ width`, which every `usize` satisfies). -/
def binChars (width : Nat) (block : Nat) : List Char :=
  (List.range width).map (fun i => if block.testBit (width - 1 - i) then '1' else '0')

namespace BitSet

/-- `impl ToString for BitSet`: render the blocks most-significant
first, concatenate, and keep the last `size` characters. -/
def toString (b : BitSet) : String :=
  let full := (b.blocks.reverse.map (fun block => binChars blockSize block)).flatten
  String.mk (full.drop (full.length - b.size))

/-- The logical bit at position `p` of a block list (out-of-range
blocks read as 0).  This is the value `get` returns on a well-formed
set. -/
def bitOfBlocks (bs : List Nat) (p : Nat) : Bool :=
  (bs.getD (p / blockSize) 0).testBit (p % blockSize)

/-- The logical bit at position `p` of a BitSet. -/
def bitOf (b : BitSet) (p : Nat) : Bool :=
  bitOfBlocks b.blocks p

/-- Well-formedness of a `BitSet` as a Rust value: at least one bit,
the block count the constructors establish, every block a `usize`
value, and the padding bits of the final block clear. -/
def Invariant (b : BitSet) : Prop :=
  1 ≤ b.size ∧
  b.blocks.length = blocks_number b.size ∧
  (∀ j < b.blocks.length, b.blocks.getD j 0 < 2 ^ blockSize) ∧
  (∀ p < blockSize * b.blocks.length, b.size ≤ p → b.bitOf p = false)

instance (b : BitSet) : Decidable b.Invariant := by
  unfold Invariant
  infer_instance

end BitSet

/-- Decidable equality for `Except`, so concrete results of the
fallible operations can be compared by `decide`. -/
instance instDecEqExcept {e a : Type} [DecidableEq e] [DecidableEq a] :
    DecidableEq (Except e a) := fun x y =>
  match x, y with
  | Except.ok u, Except.ok w =>
    if h : u = w then isTrue (by rw [h])
    else isFalse (fun hh => h (Except.ok.inj hh))
  | Except.error u, Except.error w =>
    if h : u = w then isTrue (by rw [h])
    else isFalse (fun hh => h (Except.error.inj hh))
  | Except.ok _, Except.error _ => isFalse (fun hh => Except.noConfusion hh)
  | Except.error _, Except.ok _ => isFalse (fun hh => Except.noConfusion hh)

/-- The widths (in bits) of the supported unsigned source types u8,
u16, u32, u64, u128; usize is u64 on the modelled platform. -/
def sourceWidths : List Nat := [8, 16, 32, 64, 128]

/-- BitSets reachable through the public constructors and in-range
`set` calls. -/
inductive Reachable : BitSet → Prop where
  | of_new : ∀ size b, BitSet.new size = Except.ok b → Reachable b
  | of_uint : ∀ w v, w ∈ sourceWidths → v < 2 ^ w → Reachable (BitSet.ofUint w v)
  | of_set : ∀ b p v b', Reachable b → BitSet.set b p v = Except.ok b' → Reachable b'

/-! ### Arithmetic facts about the block layout -/

lemma blocks_number_eq (size : Nat) :
    BitSet.blocks_number size = (size + blockSize - 1) / blockSize := by
  simp only [BitSet.blocks_number, blockSize]
  split <;> omega

lemma div_lt_blocks_number {p size : Nat} (h : p < size) :
    p / blockSize < BitSet.blocks_number size := by
  rw [blocks_number_eq]
  simp only [blockSize]
  omega

lemma size_le_mul_blocks_number (size : Nat) :
    size ≤ blockSize * BitSet.blocks_number size := by
  rw [blocks_number_eq]
  simp only [blockSize]
  omega

/-! ### Bits, masks and single blocks -/

lemma make_bitmask_eq (off : Nat) : BitSet.make_bitmask off = 2 ^ off := by
  simp [BitSet.make_bitmask, Nat.shiftLeft_eq]

lemma and_two_pow_ne_zero_iff (block off : Nat) :
    block &&& 2 ^ off ≠ 0 ↔ block.testBit off = true := by
  constructor
  · intro h
    by_contra hb
    apply h
    apply Nat.eq_of_testBit_eq
    intro i
    simp only [Nat.testBit_and, Nat.zero_testBit]
    rcases eq_or_ne off i with rfl | hne
    · simp [Bool.not_eq_true] at hb
      simp [hb]
    · simp [Nat.testBit_two_pow_of_ne hne]
  · intro h hzero
    have := congrArg (fun x => x.testBit off) hzero
    simp only [Nat.testBit_and, Nat.zero_testBit, h, Nat.testBit_two_pow_self,
      Bool.and_true] at this
    exact Bool.true_eq_false.mp this

lemma and_mask_bne (block off : Nat) :
    (block &&& BitSet.make_bitmask off != 0) = block.testBit off := by
  rw [make_bitmask_eq, Bool.eq_iff_iff]
  simp only [bne_iff_ne, ne_eq]
  exact and_two_pow_ne_zero_iff block off

lemma testBit_updatedBlock_self (block off : Nat) (v : Bool) (hoff : off < blockSize) :
    (BitSet.updatedBlock block off v).testBit off = v := by
  unfold BitSet.updatedBlock
  rw [make_bitmask_eq]
  cases v with
  | true => simp [Nat.testBit_or, Nat.testBit_two_pow_self]
  | false =>
    simp only [usizeMax, Nat.testBit_and, Nat.testBit_xor,
      Nat.testBit_two_pow_sub_one, Nat.testBit_two_pow_self]
    simp [hoff]

lemma testBit_updatedBlock_other (block off j : Nat) (v : Bool)
    (hj : j ≠ off) (hjlt : j < blockSize) :
    (BitSet.updatedBlock block off v).testBit j = block.testBit j := by
  unfold BitSet.updatedBlock
  rw [make_bitmask_eq]
  cases v with
  | true => simp [Nat.testBit_or, Nat.testBit_two_pow_of_ne (Ne.symm hj)]
  | false =>
    simp only [usizeMax, Bool.false_eq_true, if_false, Nat.testBit_and,
      Nat.testBit_xor, Nat.testBit_two_pow_sub_one]
    rw [Nat.testBit_two_pow_of_ne (Ne.symm hj)]
    simp [hjlt]

lemma updatedBlock_lt (block off : Nat) (v : Bool)
    (hb : block < 2 ^ blockSize) (hoff : off < blockSize) :
    BitSet.updatedBlock block off v < 2 ^ blockSize := by
  unfold BitSet.updatedBlock
  rw [make_bitmask_eq]
  cases v with
  | true =>
    exact Nat.or_lt_two_pow hb (Nat.pow_lt_pow_right Nat.one_lt_two hoff)
  | false =>
    exact Nat.lt_of_le_of_lt Nat.and_le_left hb

/-! ### Evaluating `get` and `set` on well-formed sets -/

lemma get_eq_ok {b : BitSet} {p : Nat}
    (hlen : p / blockSize < b.blocks.length) (hp : p < b.size) :
    b.get p = Except.ok (b.bitOf p) := by
  unfold BitSet.get BitSet.bitOf BitSet.bitOfBlocks BitSet.get_bit_position
  rw [if_neg (by omega)]
  simp only
  rw [List.getElem?_eq_getElem hlen]
  simp only
  congr 1
  rw [and_mask_bne]
  congr 1
  simp [List.getD_eq_getElem?_getD, List.getElem?_eq_getElem hlen]

lemma set_eq_ok {b : BitSet} {p : Nat} (v : Bool)
    (hlen : p / blockSize < b.blocks.length) (hp : p < b.size) :
    b.set p v = Except.ok
      { blocks := b.blocks.set (p / blockSize)
          (BitSet.updatedBlock (b.blocks.getD (p / blockSize) 0) (p % blockSize) v),
        size := b.size } := by
  unfold BitSet.set BitSet.get_bit_position
  rw [if_neg (by omega)]
  simp only
  rw [List.getElem?_eq_getElem hlen]
  simp [List.getD_eq_getElem?_getD, List.getElem?_eq_getElem hlen]

lemma set_ok_inv {b b' : BitSet} {p : Nat} {v : Bool}
    (hset : b.set p v = Except.ok b') :
    p < b.size ∧ p / blockSize < b.blocks.length ∧
      b' = { blocks := b.blocks.set (p / blockSize)
               (BitSet.updatedBlock (b.blocks.getD (p / blockSize) 0) (p % blockSize) v),
             size := b.size } := by
  unfold BitSet.set BitSet.get_bit_position at hset
  simp only [] at hset
  by_cases hp : b.size ≤ p
  · rw [if_pos hp] at hset
    exact absurd hset (by simp)
  · rw [if_neg hp] at hset
    push_neg at hp
    refine ⟨hp, ?_, ?_⟩
    · by_contra hlen
      push_neg at hlen
      rw [List.getElem?_eq_none hlen] at hset
      exact absurd hset (by simp)
    · have hlen : p / blockSize < b.blocks.length := by
        by_contra hlen
        push_neg at hlen
        rw [List.getElem?_eq_none hlen] at hset
        exact absurd hset (by simp)
      rw [List.getElem?_eq_getElem hlen] at hset
      simp only [Except.ok.injEq] at hset
      rw [← hset]
      simp [List.getD_eq_getElem?_getD, List.getElem?_eq_getElem hlen]

lemma bitOf_set_self {b b' : BitSet} {p : Nat} {v : Bool}
    (hset : b.set p v = Except.ok b') : b'.bitOf p = v := by
  obtain ⟨hp, hlen, rfl⟩ := set_ok_inv hset
  unfold BitSet.bitOf BitSet.bitOfBlocks
  simp only [List.getD_eq_getElem?_getD, List.getElem?_set_self (by simpa using hlen),
    Option.getD_some]
  exact testBit_updatedBlock_self _ _ _ (by simp only [blockSize]; omega)

lemma bitOf_set_other {b b' : BitSet} {p q : Nat} {v : Bool}
    (hset : b.set p v = Except.ok b') (hq : q ≠ p) : b'.bitOf q = b.bitOf q := by
  obtain ⟨hp, hlen, rfl⟩ := set_ok_inv hset
  unfold BitSet.bitOf BitSet.bitOfBlocks
  rcases eq_or_ne (q / blockSize) (p / blockSize) with hdiv | hdiv
  · have hmod : q % blockSize ≠ p % blockSize := by
      intro hmod
      apply hq
      have h1 : q = blockSize * (q / blockSize) + q % blockSize := (Nat.div_add_mod q blockSize).symm
      have h2 : p = blockSize * (p / blockSize) + p % blockSize := (Nat.div_add_mod p blockSize).symm
      rw [h1, h2, hdiv, hmod]
    rw [hdiv]
    simp only [List.getD_eq_getElem?_getD, List.getElem?_set_self (by simpa using hlen),
      Option.getD_some]
    rw [testBit_updatedBlock_other _ _ _ _ hmod (by simp only [blockSize]; omega)]
  · simp only [List.getD_eq_getElem?_getD, List.getElem?_set_ne (Ne.symm hdiv)]

/-! ### The data-structure invariant -/

lemma invariant_set {b b' : BitSet} {p : Nat} {v : Bool}
    (hInv : b.Invariant) (hset : b.set p v = Except.ok b') : b'.Invariant := by
  obtain ⟨hsz, hlenInv, hbound, hpad⟩ := hInv
  obtain ⟨hp, hlen, hb'⟩ := set_ok_inv hset
  have hlen' : b'.blocks.length = b.blocks.length := by rw [hb']; simp
  refine ⟨?_, ?_, ?_, ?_⟩
  · rw [hb']; exact hsz
  · rw [hlen', hb']; exact hlenInv
  · intro j hj
    rw [hlen'] at hj
    rw [hb']
    simp only [List.getD_eq_getElem?_getD]
    rcases eq_or_ne j (p / blockSize) with rfl | hne
    · rw [List.getElem?_set_self (by simpa using hlen)]
      simp only [Option.getD_some]
      apply updatedBlock_lt
      · have := hbound _ hlen
        simpa [List.getD_eq_getElem?_getD, List.getElem?_eq_getElem hlen] using this
      · simp only [blockSize]; omega
    · rw [List.getElem?_set_ne (Ne.symm hne)]
      have := hbound j hj
      simpa [List.getD_eq_getElem?_getD] using this
  · intro r hr hrsz
    have hb'size : b'.size = b.size := by rw [hb']
    rw [hlen'] at hr
    rw [hb'size] at hrsz
    have hrp : r ≠ p := by omega
    rw [bitOf_set_other hset hrp]
    exact hpad r hr hrsz

lemma get_ok_of_invariant {b : BitSet} {p : Nat}
    (hInv : b.Invariant) (hp : p < b.size) :
    b.get p = Except.ok (b.bitOf p) := by
  obtain ⟨hsz, hlenInv, _, _⟩ := hInv
  exact get_eq_ok (by rw [hlenInv]; exact div_lt_blocks_number hp) hp

lemma set_ok_of_invariant {b : BitSet} {p : Nat} (v : Bool)
    (hInv : b.Invariant) (hp : p < b.size) :
    b.set p v = Except.ok
      { blocks := b.blocks.set (p / blockSize)
          (BitSet.updatedBlock (b.blocks.getD (p / blockSize) 0) (p % blockSize) v),
        size := b.size } := by
  obtain ⟨hsz, hlenInv, _, _⟩ := hInv
  exact set_eq_ok v (by rw [hlenInv]; exact div_lt_blocks_number hp) hp

/-! ### Evaluating the `From` conversions -/

lemma toBeBytes_length (m v : Nat) : (toBeBytes m v).length = m := by
  simp [toBeBytes]

lemma toBeBytes_succ (m v : Nat) :
    toBeBytes (m + 1) v = (v / 2 ^ (8 * m) % 256) :: toBeBytes m v := by
  unfold toBeBytes
  rw [List.range_succ_eq_map, List.map_cons, List.map_map]
  have hm : m + 1 - 1 - 0 = m := by omega
  rw [hm]
  congr 1
  apply List.map_congr_left
  intro i hi
  simp only [Function.comp_apply]
  congr 3
  omega

lemma beFoldBlock_aux (m v a : Nat) :
    List.foldl (fun block byte => (block <<< 8) ||| byte) a (toBeBytes m v)
      = a * 2 ^ (8 * m) + v % 2 ^ (8 * m) := by
  induction m generalizing a with
  | zero => simp [toBeBytes, Nat.mod_one]
  | succ m ih =>
    rw [toBeBytes_succ, List.foldl_cons, ih]
    have h256 : (256 : Nat) = 2 ^ 8 := by norm_num
    have hbyte : v / 2 ^ (8 * m) % 256 < 2 ^ 8 := by
      rw [← h256]; exact Nat.mod_lt _ (by norm_num)
    have hor : (a <<< 8) ||| (v / 2 ^ (8 * m) % 256)
        = 2 ^ 8 * a + v / 2 ^ (8 * m) % 256 := by
      rw [Nat.shiftLeft_eq, Nat.mul_comm]
      exact (Nat.mul_add_lt_is_or hbyte a).symm
    rw [hor]
    have hmod : v % 2 ^ (8 * (m + 1)) = v % 2 ^ (8 * m) + 2 ^ (8 * m) * (v / 2 ^ (8 * m) % 256) := by
      have h8 : 8 * (m + 1) = 8 * m + 8 := by ring
      rw [h8, Nat.pow_add, ← h256]
      exact Nat.mod_mul
    rw [hmod]
    have h8 : 8 * (m + 1) = 8 * m + 8 := by ring
    rw [h8, Nat.pow_add, ← h256]
    ring

lemma beFoldBlock_toBeBytes (m v : Nat) :
    beFoldBlock (toBeBytes m v) = v % 2 ^ (8 * m) := by
  unfold beFoldBlock
  rw [beFoldBlock_aux]
  simp

lemma chunksOfAux_nil (k fuel : Nat) : chunksOfAux k fuel [] = [] := by
  cases fuel <;> rfl

lemma chunksOfAux_cons (k fuel : Nat) (a : Nat) (t : List Nat) :
    chunksOfAux k (fuel + 1) (a :: t) =
      (a :: t).take k :: chunksOfAux k fuel ((a :: t).drop k) := rfl

lemma chunksOfAux_fuel {k : Nat} (hk : 1 ≤ k) :
    ∀ fuel fuel' (l : List Nat), l.length ≤ fuel → l.length ≤ fuel' →
      chunksOfAux k fuel l = chunksOfAux k fuel' l := by
  intro fuel
  induction fuel with
  | zero =>
    intro fuel' l hl _
    have : l = [] := List.length_eq_zero.mp (by omega)
    subst this
    rw [chunksOfAux_nil, chunksOfAux_nil]
  | succ fuel ih =>
    intro fuel' l hl hl'
    cases l with
    | nil => rw [chunksOfAux_nil, chunksOfAux_nil]
    | cons a t =>
      have hl'pos : 1 ≤ fuel' := by simp at hl'; omega
      obtain ⟨fuel'', rfl⟩ : ∃ f, fuel' = f + 1 := ⟨fuel' - 1, by omega⟩
      rw [chunksOfAux_cons, chunksOfAux_cons]
      congr 1
      apply ih
      · simp at hl ⊢; omega
      · simp at hl' ⊢; omega

lemma chunksOf_small {l : List Nat} (h1 : l ≠ []) (h8 : l.length ≤ 8) :
    chunksOf 8 l = [l] := by
  unfold chunksOf
  cases l with
  | nil => exact absurd rfl h1
  | cons a t =>
    simp only [List.length_cons]
    rw [chunksOfAux_cons]
    rw [List.take_of_length_le (by simpa using h8),
      List.drop_eq_nil_of_le (by simpa using h8), chunksOfAux_nil]

lemma chunksOf_16 {l : List Nat} (h : l.length = 16) :
    chunksOf 8 l = [l.take 8, l.drop 8] := by
  unfold chunksOf
  cases l with
  | nil => simp at h
  | cons a t =>
    have ht : t.length = 15 := by simpa using h
    rw [List.length_cons, ht]
    rw [chunksOfAux_cons]
    congr 1
    have hdl : ((a :: t).drop 8).length = 8 := by simp [ht]
    rw [chunksOfAux_fuel (by norm_num) 15 8 _ (by omega) (by omega)]
    have : chunksOf 8 ((a :: t).drop 8) = [(a :: t).drop 8] :=
      chunksOf_small (by
        intro hnil
        rw [hnil] at hdl
        simp at hdl) (by omega)
    unfold chunksOf at this
    rw [hdl] at this
    exact this

lemma toBeBytes_16_take (v : Nat) :
    (toBeBytes 16 v).take 8 = toBeBytes 8 (v / 2 ^ 64) := by
  unfold toBeBytes
  rw [← List.map_take]
  have h16 : (16 : Nat) = 8 + 8 := by norm_num
  rw [h16, List.range_add, List.take_left' (by simp)]
  apply List.map_congr_left
  intro i hi
  have hi8 : i < 8 := List.mem_range.mp hi
  rw [Nat.div_div_eq_div_mul, ← Nat.pow_add]
  have he : 64 + 8 * (8 - 1 - i) = 8 * (8 + 8 - 1 - i) := by omega
  rw [he]

lemma toBeBytes_16_drop (v : Nat) :
    (toBeBytes 16 v).drop 8 = toBeBytes 8 v := by
  unfold toBeBytes
  rw [← List.map_drop]
  have h16 : (16 : Nat) = 8 + 8 := by norm_num
  rw [h16, List.range_add, List.drop_left' (by simp), List.map_map]
  apply List.map_congr_left
  intro i hi
  have hi8 : i < 8 := List.mem_range.mp hi
  simp only [Function.comp_apply]
  congr 3
  omega

lemma fromUint_size (w v : Nat) : (BitSet.fromUint w v).size = w := rfl

lemma fromUint_blocks_small {w : Nat} (hw : w = 16 ∨ w = 32 ∨ w = 64) (v : Nat) :
    (BitSet.fromUint w v).blocks = [v % 2 ^ w] := by
  unfold BitSet.fromUint
  simp only []
  have hb : w / 8 = 8 * (w / 8) / 8 := by omega
  have h1 : toBeBytes (w / 8) v ≠ [] := by
    intro h
    have := congrArg List.length h
    rw [toBeBytes_length] at this
    rcases hw with rfl | rfl | rfl <;> simp at this
  have h2 : (toBeBytes (w / 8) v).length ≤ 8 := by
    rw [toBeBytes_length]
    rcases hw with rfl | rfl | rfl <;> norm_num
  rw [chunksOf_small h1 h2]
  simp only [List.map_cons, List.map_nil, List.reverse_cons, List.reverse_nil,
    List.nil_append, beFoldBlock_toBeBytes]
  rcases hw with rfl | rfl | rfl <;> norm_num

lemma fromUint_blocks_128 (v : Nat) :
    (BitSet.fromUint 128 v).blocks = [v % 2 ^ 64, v / 2 ^ 64 % 2 ^ 64] := by
  unfold BitSet.fromUint
  simp only []
  have h128 : (128 : Nat) / 8 = 16 := by norm_num
  rw [h128, chunksOf_16 (toBeBytes_length 16 v), toBeBytes_16_take, toBeBytes_16_drop]
  simp only [List.map_cons, List.map_nil, beFoldBlock_toBeBytes, List.reverse_cons,
    List.reverse_nil, List.nil_append, List.singleton_append]

lemma ofUint_size (w v : Nat) : (BitSet.ofUint w v).size = w := by
  unfold BitSet.ofUint
  split
  · simp only [BitSet.fromU8]
    omega
  · exact fromUint_size w v

lemma ofUint_blocks_small {w : Nat} (hw : w = 8 ∨ w = 16 ∨ w = 32 ∨ w = 64)
    {v : Nat} (hv : v < 2 ^ w) : (BitSet.ofUint w v).blocks = [v] := by
  unfold BitSet.ofUint
  rcases hw with rfl | hw'
  · rw [if_pos rfl]
    rfl
  · have h8 : w ≠ 8 := by rcases hw' with rfl | rfl | rfl <;> norm_num
    rw [if_neg h8, fromUint_blocks_small hw', Nat.mod_eq_of_lt hv]

lemma ofUint_blocks_128 {v : Nat} (hv : v < 2 ^ 128) :
    (BitSet.ofUint 128 v).blocks = [v % 2 ^ 64, v / 2 ^ 64] := by
  unfold BitSet.ofUint
  rw [if_neg (by norm_num), fromUint_blocks_128]
  have : v / 2 ^ 64 < 2 ^ 64 := Nat.div_lt_of_lt_mul (by norm_num at hv ⊢; omega)
  rw [Nat.mod_eq_of_lt this]

/-! ### Every reachable BitSet satisfies the invariant -/

lemma getD_replicate_zero (k j : Nat) : (List.replicate k (0 : Nat)).getD j 0 = 0 := by
  induction k generalizing j with
  | zero => simp [List.getD]
  | succ k ih =>
    cases j with
    | zero => simp [List.replicate_succ]
    | succ j =>
      rw [List.replicate_succ, List.getD_cons_succ]
      exact ih j

lemma testBit_false_of_lt {v n j : Nat} (hv : v < 2 ^ n) (hn : n ≤ j) :
    v.testBit j = false :=
  Nat.testBit_lt_two_pow
    (Nat.lt_of_lt_of_le hv (Nat.pow_le_pow_right (by norm_num) hn))

lemma new_invariant {size : Nat} {b : BitSet} (h : BitSet.new size = Except.ok b) :
    b.Invariant := by
  unfold BitSet.new at h
  by_cases h0 : size = 0
  · rw [if_pos h0] at h
    exact absurd h (by simp)
  · rw [if_neg h0] at h
    simp only [Except.ok.injEq] at h
    subst h
    refine ⟨by show 1 ≤ size; omega, by simp, ?_, ?_⟩
    · intro j hj
      simp only [getD_replicate_zero]
      norm_num [blockSize]
    · intro r hr hrsz
      unfold BitSet.bitOf BitSet.bitOfBlocks
      simp [getD_replicate_zero]

lemma blocks_number_small {w : Nat} (hw : w = 8 ∨ w = 16 ∨ w = 32 ∨ w = 64) :
    BitSet.blocks_number w = 1 := by
  rcases hw with rfl | rfl | rfl | rfl <;> rfl

lemma ofUint_invariant {w v : Nat} (hw : w ∈ sourceWidths) (hv : v < 2 ^ w) :
    (BitSet.ofUint w v).Invariant := by
  have hw' : w = 8 ∨ w = 16 ∨ w = 32 ∨ w = 64 ∨ w = 128 := by
    simpa [sourceWidths] using hw
  rcases hw' with h | h | h | h | h
  all_goals subst h
  -- the four one-block widths
  case _ | _ | _ | _ =>
    first
    | (refine ⟨by rw [ofUint_size]; norm_num, ?_, ?_, ?_⟩
       · rw [ofUint_blocks_small (by norm_num) hv, ofUint_size]
         rw [blocks_number_small (by norm_num)]
         rfl
       · intro j hj
         rw [ofUint_blocks_small (by norm_num) hv] at hj ⊢
         simp only [List.length_cons, List.length_nil] at hj
         interval_cases j
         simp only [List.getD_cons_zero]
         calc v < 2 ^ _ := hv
           _ ≤ 2 ^ blockSize := Nat.pow_le_pow_right (by norm_num) (by simp [blockSize])
       · intro r hr hrsz
         unfold BitSet.bitOf BitSet.bitOfBlocks
         rw [ofUint_blocks_small (by norm_num) hv] at hr ⊢
         rw [ofUint_size] at hrsz
         simp only [List.length_cons, List.length_nil] at hr
         have hr64 : r < blockSize := by simp only [blockSize] at hr ⊢; omega
         have hdiv : r / blockSize = 0 := Nat.div_eq_of_lt hr64
         rw [hdiv, Nat.mod_eq_of_lt hr64]
         simp only [List.getD_cons_zero]
         exact testBit_false_of_lt hv hrsz)
  -- w = 128
  refine ⟨by rw [ofUint_size]; norm_num, ?_, ?_, ?_⟩
  · rw [ofUint_blocks_128 hv, ofUint_size]
    simp [BitSet.blocks_number, blockSize]
  · intro j hj
    rw [ofUint_blocks_128 hv] at hj ⊢
    simp only [List.length_cons, List.length_nil] at hj
    have hdivlt : v / 2 ^ 64 < 2 ^ 64 := Nat.div_lt_of_lt_mul (by norm_num at hv ⊢; omega)
    interval_cases j
    · have hmlt : v % 2 ^ 64 < 2 ^ 64 := Nat.mod_lt v (by norm_num)
      simpa [blockSize] using hmlt
    · simpa [blockSize] using hdivlt
  · intro r hr hrsz
    rw [ofUint_blocks_128 hv] at hr
    rw [ofUint_size] at hrsz
    simp only [List.length_cons, List.length_nil, blockSize] at hr
    omega

lemma reachable_invariant {b : BitSet} (h : Reachable b) : b.Invariant := by
  induction h with
  | of_new size b hnew => exact new_invariant hnew
  | of_uint w v hw hv => exact ofUint_invariant hw hv
  | of_set b p v b' _ hset ih => exact invariant_set ih hset

/-! ### Characterizing `to_string` -/

lemma bitOfBlocks_cons_lt {m : Nat} (bl : Nat) (rest : List Nat) (h : m < blockSize) :
    BitSet.bitOfBlocks (bl :: rest) m = bl.testBit m := by
  unfold BitSet.bitOfBlocks
  have h1 : m / blockSize = 0 := Nat.div_eq_of_lt h
  have h2 : m % blockSize = m := Nat.mod_eq_of_lt h
  rw [h1, h2, List.getD_cons_zero]

lemma bitOfBlocks_cons_ge {m : Nat} (bl : Nat) (rest : List Nat) (h : blockSize <= m) :
    BitSet.bitOfBlocks (bl :: rest) m = BitSet.bitOfBlocks rest (m - blockSize) := by
  unfold BitSet.bitOfBlocks
  have h1 : m / blockSize = (m - blockSize) / blockSize + 1 := by
    simp only [blockSize] at h ⊢
    omega
  have h2 : m % blockSize = (m - blockSize) % blockSize := by
    simp only [blockSize] at h ⊢
    omega
  rw [h1, h2, List.getD_cons_succ]

lemma flatten_binChars (bs : List Nat) :
    (bs.reverse.map (binChars blockSize)).flatten
      = (List.range (blockSize * bs.length)).map
          (fun j => if BitSet.bitOfBlocks bs (blockSize * bs.length - 1 - j) then '1' else '0') := by
  induction bs with
  | nil => simp
  | cons bl rest ih =>
    rw [List.reverse_cons, List.map_append, List.flatten_append, ih]
    have hlen : blockSize * (bl :: rest).length
        = blockSize * rest.length + blockSize := by
      rw [List.length_cons, Nat.mul_succ]
    rw [hlen, List.range_add, List.map_append]
    congr 1
    · apply List.map_congr_left
      intro j hj
      have hjN : j < blockSize * rest.length := List.mem_range.mp hj
      have hge : blockSize <= blockSize * rest.length + blockSize - 1 - j := by
        simp only [blockSize] at hjN ⊢
        omega
      rw [bitOfBlocks_cons_ge bl rest hge]
      have hidx : blockSize * rest.length + blockSize - 1 - j - blockSize
          = blockSize * rest.length - 1 - j := by
        simp only [blockSize]
        omega
      rw [hidx]
    · simp only [List.map_cons, List.map_nil, List.flatten_cons, List.flatten_nil,
        List.append_nil, List.map_map]
      unfold binChars
      apply List.map_congr_left
      intro t ht
      have ht64 : t < blockSize := List.mem_range.mp ht
      simp only [Function.comp_apply]
      have hlt : blockSize * rest.length + blockSize - 1 - (blockSize * rest.length + t)
          = blockSize - 1 - t := by
        simp only [blockSize] at ht64 ⊢
        omega
      rw [hlt, bitOfBlocks_cons_lt bl rest (by simp only [blockSize] at ht64 ⊢; omega)]

lemma drop_range_map {α : Type} (f : Nat → α) (N d : Nat) (hd : d <= N) :
    ((List.range N).map f).drop d = (List.range (N - d)).map (fun j => f (d + j)) := by
  calc ((List.range N).map f).drop d
      = ((List.range (d + (N - d))).map f).drop d := by rw [Nat.add_sub_cancel' hd]
    _ = (List.range (N - d)).map (fun j => f (d + j)) := by
        rw [List.range_add, List.map_append, List.drop_left' (by simp), List.map_map]
        rfl

lemma toString_data (b : BitSet) (hle : b.size <= blockSize * b.blocks.length) :
    (BitSet.toString b).data
      = (List.range b.size).map (fun j => if b.bitOf (b.size - 1 - j) then '1' else '0') := by
  unfold BitSet.toString
  simp only []
  show ((b.blocks.reverse.map (binChars blockSize)).flatten.drop
      ((b.blocks.reverse.map (binChars blockSize)).flatten.length - b.size)) = _
  rw [flatten_binChars]
  have hlenfull : ((List.range (blockSize * b.blocks.length)).map
      (fun j => if BitSet.bitOfBlocks b.blocks (blockSize * b.blocks.length - 1 - j)
        then '1' else '0')).length = blockSize * b.blocks.length := by
    simp
  rw [hlenfull, drop_range_map _ _ _ (by omega)]
  have hsub : blockSize * b.blocks.length - (blockSize * b.blocks.length - b.size) = b.size := by
    omega
  rw [hsub]
  apply List.map_congr_left
  intro j hj
  have hjs : j < b.size := List.mem_range.mp hj
  unfold BitSet.bitOf
  have hidx : blockSize * b.blocks.length - 1
      - (blockSize * b.blocks.length - b.size + j) = b.size - 1 - j := by
    omega
  rw [hidx]

lemma toString_length (b : BitSet) (hle : b.size <= blockSize * b.blocks.length) :
    (BitSet.toString b).length = b.size := by
  show (BitSet.toString b).data.length = b.size
  rw [toString_data b hle]
  simp

/-! ## The claims -/

/-- C1: the spec claims that for every supported unsigned source type S,
every value v of S and every at-least-as-wide supported target T,
`T::try_from(BitSet::from(v)) == Ok(v)`.  The code violates this for
S = T = u128 at v = 2^64: `try_from` rejects every u128 input whose
high block is nonzero (it checks `blocks[blocks_needed - 1..]`, which
includes the most significant needed block), so on the failing input it
returns the conversion error instead of `Ok(2^64)`. -/
theorem C1_roundtrip_failure :
    tryFromUint 128 (BitSet.ofUint 128 (2 ^ 64)) = Except.error conversionError ∧
    tryFromUint 128 (BitSet.ofUint 128 (2 ^ 64)) ≠ Except.ok (2 ^ 64) := by
  refine ⟨by decide, ?_⟩
  intro h
  rw [show tryFromUint 128 (BitSet.ofUint 128 (2 ^ 64))
      = Except.error conversionError by decide] at h
  exact Except.noConfusion h

/-- C2: the spec claims that for a strictly narrower target T,
`try_from` returns Err exactly when v exceeds T's maximum.  The code
violates this for S = u128, T = u8 at v = 2^64: the single-block branch
inspects only `blocks[0]` (the low 64 bits, here 0) and ignores the
nonzero high block, returning `Ok(0)` although v far exceeds u8::MAX. -/
theorem C2_narrowing_failure :
    tryFromUint 8 (BitSet.ofUint 128 (2 ^ 64)) = Except.ok 0 ∧
    (2 : Nat) ^ 8 - 1 < 2 ^ 64 := by
  refine ⟨by decide, by norm_num⟩

/-- C3: the spec describes the multi-block branch as checking that all
blocks beyond the `blocks_needed` needed ones are zero and accumulating
the needed blocks.  The code instead checks `blocks[blocks_needed-1..]`
(an off-by-one that includes the most significant needed block) and
accumulates only `blocks[0..blocks_needed-1]`.  Failing input: the
BitSet `from(1u128 << 64)` = blocks [0, 1] converted to u128; every
block beyond the 2 needed ones is (vacuously) zero, so the claim
demands success with value 2^64, yet the code fails. -/
theorem C3_multiblock_failure :
    (∀ block ∈ (BitSet.ofUint 128 (2 ^ 64)).blocks.drop 2, block = 0) ∧
    tryFromUint 128 (BitSet.ofUint 128 (2 ^ 64)) = Except.error conversionError := by
  refine ⟨?_, by decide⟩
  intro block hb
  have hdrop : (BitSet.ofUint 128 (2 ^ 64)).blocks.drop 2 = [] := by decide
  rw [hdrop] at hb
  exact absurd hb (List.not_mem_nil block)

/-- C4: for every well-formed BitSet b, in-range position p and boolean
v, `set(p, v)` succeeds, after it `get(p)` returns v, and `get(q)` is
unchanged for every other in-range position q. -/
theorem C4_set_get_frame (b : BitSet) (hInv : b.Invariant) (p : Nat)
    (hp : p < b.size) (v : Bool) :
    ∃ b', b.set p v = Except.ok b' ∧ b'.get p = Except.ok v ∧
      ∀ q, q < b.size → q ≠ p → b'.get q = b.get q := by
  have hset := set_ok_of_invariant v hInv hp
  have hInv' := invariant_set hInv hset
  refine ⟨_, hset, ?_, ?_⟩
  · rw [get_ok_of_invariant hInv' hp, bitOf_set_self hset]
  · intro q hq hqp
    rw [get_ok_of_invariant hInv' hq, get_ok_of_invariant hInv hq,
      bitOf_set_other hset hqp]

/-- Witness for C4 at the BitSet built from `0u8` and position 3. -/
theorem C4_witness :
    ∃ b', (BitSet.ofUint 8 0).set 3 true = Except.ok b' ∧
      b'.get 3 = Except.ok true ∧
      ∀ q, q < (BitSet.ofUint 8 0).size → q ≠ 3 →
        b'.get q = (BitSet.ofUint 8 0).get q :=
  C4_set_get_frame (BitSet.ofUint 8 0) (by decide) 3 (by decide) true

/-- C5: every BitSet reachable through the public operations satisfies
both invariants: the block count is `ceil(size / block_width)` and every
bit at a logical position at or above `size` within the allocated
blocks is 0. -/
theorem C5_reachable_invariants (b : BitSet) (h : Reachable b) :
    b.blocks.length = (b.size + blockSize - 1) / blockSize ∧
    ∀ p < blockSize * b.blocks.length, b.size ≤ p → b.bitOf p = false := by
  obtain ⟨_, hlen, _, hpad⟩ := reachable_invariant h
  exact ⟨by rw [hlen, blocks_number_eq], hpad⟩

/-- Witness for C5 at the BitSet built from `170u8`. -/
theorem C5_witness :
    (BitSet.ofUint 8 170).blocks.length
        = ((BitSet.ofUint 8 170).size + blockSize - 1) / blockSize ∧
    ∀ p < blockSize * (BitSet.ofUint 8 170).blocks.length,
      (BitSet.ofUint 8 170).size ≤ p → (BitSet.ofUint 8 170).bitOf p = false :=
  C5_reachable_invariants _ (Reachable.of_uint 8 170 (by decide) (by decide))

/-- C6: for every size >= 1, `new(size)` succeeds with
`ceil(size / block_width)` blocks and all bits reading false, and
`new(0)` always faults. -/
theorem C6_new (size : Nat) :
    (1 ≤ size → ∃ b, BitSet.new size = Except.ok b ∧
       b.blocks.length = (size + blockSize - 1) / blockSize ∧
       ∀ p < size, b.get p = Except.ok false) ∧
    BitSet.new 0 = Except.error "Creating BitSet with zero bits is not allowed." := by
  constructor
  · intro h1
    have hne : ¬ size = 0 := by omega
    have hnew : BitSet.new size = Except.ok
        { blocks := List.replicate (BitSet.blocks_number size) 0, size := size } := by
      unfold BitSet.new
      rw [if_neg hne]
    have hInv := new_invariant hnew
    refine ⟨_, hnew, ?_, ?_⟩
    · simp [blocks_number_eq]
    · intro p hp
      rw [get_ok_of_invariant hInv hp]
      unfold BitSet.bitOf BitSet.bitOfBlocks
      simp [getD_replicate_zero]
  · rfl

/-- Witness for C6 at size 66. -/
theorem C6_witness :
    (∃ b, BitSet.new 66 = Except.ok b ∧
       b.blocks.length = (66 + blockSize - 1) / blockSize ∧
       ∀ p < 66, b.get p = Except.ok false) ∧
    BitSet.new 0 = Except.error "Creating BitSet with zero bits is not allowed." :=
  ⟨(C6_new 66).1 (by norm_num), (C6_new 66).2⟩

/-- C7: for every well-formed BitSet b of size n, `to_string()` has
exactly n characters, all of them 0 or 1, and the character at string
index (n-1-i) is 1 exactly when `get(i)` is true. -/
theorem C7_to_string (b : BitSet) (hInv : b.Invariant) :
    (BitSet.toString b).length = b.size ∧
    (∀ c ∈ (BitSet.toString b).data, c = '0' ∨ c = '1') ∧
    ∀ i < b.size,
      ((BitSet.toString b).data.getD (b.size - 1 - i) 'x' = '1'
        ↔ b.get i = Except.ok true) := by
  have hle : b.size ≤ blockSize * b.blocks.length := by
    rw [hInv.2.1]
    exact size_le_mul_blocks_number b.size
  refine ⟨toString_length b hle, ?_, ?_⟩
  · intro c hc
    rw [toString_data b hle] at hc
    obtain ⟨j, _, rfl⟩ := List.mem_map.mp hc
    by_cases hbit : b.bitOf (b.size - 1 - j) = true
    · right
      rw [if_pos hbit]
    · left
      rw [if_neg hbit]
  · intro i hi
    rw [toString_data b hle]
    have hk : b.size - 1 - i < b.size := by omega
    have hget : ((List.range b.size).map
        (fun j => if b.bitOf (b.size - 1 - j) then '1' else '0')).getD
          (b.size - 1 - i) 'x'
        = (if b.bitOf (b.size - 1 - (b.size - 1 - i)) then '1' else '0') := by
      rw [List.getD_eq_getElem?_getD, List.getElem?_map, List.getElem?_range hk]
      rfl
    rw [hget]
    have hii : b.size - 1 - (b.size - 1 - i) = i := by omega
    rw [hii, get_ok_of_invariant hInv hi]
    cases hbit : b.bitOf i
    · simp [hbit]
    · simp [hbit]

/-- Witness for C7: the length clause at the BitSet built from
`170u8`. -/
theorem C7_witness :
    (BitSet.toString (BitSet.ofUint 8 170)).length = (BitSet.ofUint 8 170).size :=
  (C7_to_string (BitSet.ofUint 8 170) (by decide)).1

/-- C8 counterexample: the claim says `all()` is true on the BitSet
built from `T::MAX` for every supported source type, but for `u8::MAX`
it is false: `all()` compares the whole 64-bit block (padding bits
included) against `usize::MAX`, and the block holds only 255. -/
theorem C8_all_counterexample :
    (BitSet.ofUint 8 (2 ^ 8 - 1)).all = false := by decide

/-- C8 (amended): for the source types at least as wide as a block
(u64, usize, u128), `all()` on the BitSet built from the type's maximum
value is true and clearing any single bit makes it false; for the
narrower source types (u8, u16, u32) `all()` on the maximum value is
already false because the padding bits of the single block take part in
the comparison. -/
theorem C8_all_amended :
    (∀ w, w = 64 ∨ w = 128 →
       (BitSet.ofUint w (2 ^ w - 1)).all = true ∧
       ∀ p < w, ((BitSet.ofUint w (2 ^ w - 1)).set p false).map BitSet.all
           = Except.ok false) ∧
    (∀ w, w = 8 ∨ w = 16 ∨ w = 32 →
       (BitSet.ofUint w (2 ^ w - 1)).all = false) := by
  constructor
  · intro w hw
    rcases hw with rfl | rfl
    · exact ⟨by decide, by decide⟩
    · exact ⟨by decide, by decide⟩
  · intro w hw
    rcases hw with rfl | rfl | rfl
    · decide
    · decide
    · decide

/-- Witness for C8 at u64 and u8. -/
theorem C8_witness :
    (BitSet.ofUint 64 (2 ^ 64 - 1)).all = true ∧
    (BitSet.ofUint 8 (2 ^ 8 - 1)).all = false :=
  ⟨(C8_all_amended.1 64 (Or.inl rfl)).1, C8_all_amended.2 8 (Or.inl rfl)⟩

/-- C9: `get` and `set` fault exactly on out-of-range positions, the
fault message is the formatted string naming the offending position and
the valid range [0, size-1], and an in-range call never faults.  In
this functional model a faulting `set` returns only the error, so the
blocks are untouched. -/
theorem C9_range_check (b : BitSet) (hInv : b.Invariant) (p : Nat) (v : Bool) :
    (b.size ≤ p →
       b.get p = Except.error (BitSet.positionMessage p b.size) ∧
       b.set p v = Except.error (BitSet.positionMessage p b.size)) ∧
    (p < b.size →
       (∃ bit, b.get p = Except.ok bit) ∧ ∃ b', b.set p v = Except.ok b') ∧
    BitSet.positionMessage p b.size
      = "Bit position [" ++ Nat.repr p ++ "] is outside available range: [0, "
          ++ Nat.repr (b.size - 1) ++ "]" := by
  refine ⟨?_, ?_, rfl⟩
  · intro hp
    constructor
    · unfold BitSet.get
      rw [if_pos hp]
    · unfold BitSet.set
      rw [if_pos hp]
  · intro hp
    exact ⟨⟨_, get_ok_of_invariant hInv hp⟩, ⟨_, set_ok_of_invariant v hInv hp⟩⟩

/-- Witness for C9: the out-of-range branch at position 9 of an 8-bit
set. -/
theorem C9_witness :
    (BitSet.ofUint 8 0).get 9
        = Except.error (BitSet.positionMessage 9 (BitSet.ofUint 8 0).size) ∧
    (BitSet.ofUint 8 0).set 9 true
        = Except.error (BitSet.positionMessage 9 (BitSet.ofUint 8 0).size) :=
  (C9_range_check (BitSet.ofUint 8 0) (by decide) 9 true).1 (by decide)

/-- C10: every reachable BitSet has size at least 1 (so the `size - 1`
in the fault message cannot underflow), and for every in-range position
the computed block index is within the block vector, so `get` and `set`
can only fault through the documented range check. -/
theorem C10_safety (b : BitSet) (h : Reachable b) :
    1 ≤ b.size ∧
    ∀ p < b.size,
      p / blockSize < b.blocks.length ∧
      (∃ bit, b.get p = Except.ok bit) ∧
      ∀ v, ∃ b', b.set p v = Except.ok b' := by
  have hInv := reachable_invariant h
  refine ⟨hInv.1, ?_⟩
  intro p hp
  refine ⟨?_, ⟨_, get_ok_of_invariant hInv hp⟩,
    fun v => ⟨_, set_ok_of_invariant v hInv hp⟩⟩
  rw [hInv.2.1]
  exact div_lt_blocks_number hp

/-- Witness for C10: the size clause at the BitSet built from `5u8`. -/
theorem C10_witness : 1 ≤ (BitSet.ofUint 8 5).size :=
  (C10_safety _ (Reachable.of_uint 8 5 (by decide) (by decide))).1

end BitsetCrate
